import Mathlib

/-!
A shallow embedding of the core parsing and matching logic of
`src/main.py` (rise-itemizer): the Levenshtein distance, the name
validator and the attribute parser.  Python strings are modelled as
`List Char`; the Python `dict` used for the item record is modelled as
an association list that keeps the insertion order of the literal in
the source.  The `ValueError` that Python's `min` raises on an empty
sequence is modelled by `Option`: `none` is a raised exception.
ASCII-only behaviour of `str.lower()`, `str.strip()` and `\d` is
modelled by `Char.toLower`, `Char.isWhitespace` and `Char.isDigit`.
-/

set_option maxRecDepth 16384

namespace RiseItemizer

/-- Python `str.strip()`: whitespace trimmed from both ends. -/
def stripL (l : List Char) : List Char :=
  ((l.dropWhile Char.isWhitespace).reverse.dropWhile Char.isWhitespace).reverse

/-- Python `str.lower()`. -/
def toLowerL (l : List Char) : List Char := l.map Char.toLower

/-- `startsWithL needle hay`: `hay` begins with `needle`. -/
def startsWithL : List Char → List Char → Bool
  | [], _ => true
  | _ :: _, [] => false
  | a :: as, b :: bs => a = b && startsWithL as bs

/-- Python's substring test `needle in hay`. -/
def containsSub (hay needle : List Char) : Bool :=
  match hay with
  | [] => startsWithL needle []
  | c :: t => startsWithL needle (c :: t) || containsSub t needle

/-- Python `re.search` with a digits pattern: the first maximal run of
decimal digits of the line, if any. -/
def firstDigits : List Char → Option (List Char)
  | [] => none
  | c :: t => if c.isDigit then some (c :: t.takeWhile Char.isDigit) else firstDigits t

/-- Python `int` applied to a run of decimal digits. -/
def natOfDigits (l : List Char) : Nat :=
  l.foldl (fun n c => 10 * n + (c.toNat - 48)) 0

/-- `src/main.py` line 198: split the text on newlines, strip every line,
keep the non-empty ones. -/
def splitLines (text : List Char) : List (List Char) :=
  ((text.splitOn '\n').map stripL).filter (fun l => l ≠ [])

/-- Python `line.split(':')[-1]`: the text after the last colon (the whole
line when it has no colon).  `List.splitOn` never returns `[]`, so the
default is never used. -/
def afterLastColon (l : List Char) : List Char :=
  (l.splitOn ':').getLastD []

/-- Python dict lookup `d[k]` / membership, on an association list kept in
insertion order with unique keys. -/
def lookupA {α β : Type} [DecidableEq α] : List (α × β) → α → Option β
  | [], _ => none
  | (k', v') :: t, k => if k' = k then some v' else lookupA t k

/-- Python `min(xs, key := f)` (first minimiser wins), returning `none` on
the empty list where Python raises `ValueError`. -/
def argminBy {α : Type} (f : α → Nat) : List α → Option α
  | [] => none
  | x :: xs =>
    match argminBy f xs with
    | none => some x
    | some y => if f x ≤ f y then some x else some y

/-- One row-extension step of the dynamic programme inside
`levenshtein_distance` (`src/main.py` lines 77–81): given the still-unused
part of the previous row and the value last appended to the current row,
produce the rest of the current row.  The three candidates are
`previous_row[j+1] + 1`, `current_row[j] + 1` and
`previous_row[j] + (c1 != c2)`, in the source's order. -/
def currentRowRest (c1 : Char) : List Char → List Nat → Nat → List Nat
  | [], _, _ => []
  | c2 :: s2, prev, curLast =>
    match prev with
    | [] => []
    | p0 :: prevTail =>
      let v := min (prevTail.headD 0 + 1)
        (min (curLast + 1) (p0 + (if c1 = c2 then 0 else 1)))
      v :: currentRowRest c1 s2 prevTail v

/-- The outer loop of `levenshtein_distance` (`src/main.py` lines 75–82):
fold over the characters of `s1`, replacing the previous row by the
current row, whose first entry is `i + 1`. -/
def levLoop (s2 : List Char) : List Char → Nat → List Nat → List Nat
  | [], _, prev => prev
  | c1 :: rest, i, prev =>
      levLoop s2 rest (i + 1) ((i + 1) :: currentRowRest c1 s2 prev (i + 1))

/-- The body of `levenshtein_distance` after the argument swap
(`src/main.py` lines 72–83): empty second string short-circuits to the
length of the first; otherwise run the dynamic programme starting from
`range(len(s2) + 1)` and return the last entry of the final row. -/
def levCore (s1 s2 : List Char) : Nat :=
  if s2.length = 0 then s1.length
  else (levLoop s2 s1 0 (List.range (s2.length + 1))).getLastD 0

/-- `levenshtein_distance` of `src/main.py` (lines 69–83).  The Python
function recurses exactly once, to swap its arguments when the first is
shorter; the swap is inlined here. -/
def levenshtein_distance (s1 s2 : List Char) : Nat :=
  if s1.length < s2.length then levCore s2 s1 else levCore s1 s2

/-- `validate_item_name` of `src/main.py` (lines 85–101).  `item_data` is
the catalog dict in insertion order (keys unique); `column_names` the set
of lowercase column labels.  The `none` branch of the `match` is
unreachable: the catalog is non-empty there. -/
def validate_item_name (name : List Char) (item_data : List (List Char × List Char))
    (column_names : List (List Char)) : List Char × List Char :=
  if toLowerL name ∈ column_names then ([], [])
  else if item_data = [] then (name, [])
  else if (lookupA item_data name).isSome then (name, (lookupA item_data name).getD [])
  else
    match argminBy (fun x => levenshtein_distance name x) (item_data.map Prod.fst) with
    | none => (name, [])
    | some closest =>
      if levenshtein_distance name closest ≤ 3 then
        (closest, (lookupA item_data closest).getD [])
      else (name, [])

/-- A value of an item-record field: Python strings, ints and bools. -/
inductive FVal where
  | str : List Char → FVal
  | num : Nat → FVal
  | boolean : Bool → FVal
deriving DecidableEq

/-- The item record: the `attributes` dict, in insertion order. -/
abbrev Record := List (String × FVal)

/-- The `attributes` literal of `parse_attributes` (`src/main.py` lines
147–192), in the source's order. -/
def defaultAttributes : Record :=
  [("Name", .str []), ("Item Type", .str []), ("Is Radiant", .boolean false),
   ("Item Quality", .str []), ("Grade", .str []), ("Max Rune", .num 0),
   ("Attack Power", .num 0), ("Physical Defense Bonus", .num 0),
   ("Dagger Defense", .num 0), ("Sword Defense", .num 0), ("Mace Defense", .num 0),
   ("Axe Defense", .num 0), ("Spear Defense", .num 0), ("Bow Defense", .num 0),
   ("Mirror Damage", .num 0), ("Poison Damage", .num 0), ("Fire Damage", .num 0),
   ("Ice Damage", .num 0), ("Lightning Damage", .num 0), ("Holy Damage", .num 0),
   ("HP Leech", .num 0), ("Mana Burn", .num 0), ("Strength Bonus", .num 0),
   ("Health Bonus", .num 0), ("Dexterity Bonus", .num 0),
   ("Intelligence Bonus", .num 0), ("Magic Bonus", .num 0), ("HP Bonus", .num 0),
   ("MP Bonus", .num 0), ("Fire Resistance", .num 0), ("Ice Resistance", .num 0),
   ("Lightning Resistance", .num 0), ("Holy Damage Resistance", .num 0),
   ("Poison Damage Resistance", .num 0), ("Curse Damage Resistance", .num 0),
   ("Required Magic", .num 0), ("Required Intelligence", .num 0),
   ("Required HP", .num 0), ("Required Strength", .num 0),
   ("Required Dexterity", .num 0), ("Required Level", .num 0),
   ("Durability", .num 0), ("Weight", .num 0), ("Description", .str [])]

/-- The schema keys, in order.  The scan loops iterate over the keys of
the live dict, but no statement ever adds or removes a key, so the key
list is constant. -/
def attrKeys : List String := defaultAttributes.map Prod.fst

/-- Assignment `r[k] = v`: replace the value of an existing key, keeping
the insertion order (Python dict semantics; the parser only writes keys
that are already present). -/
def setA : Record → String → FVal → Record
  | [], _, _ => []
  | (k', v') :: t, k, v => if k' = k then (k', v) :: t else (k', v') :: setA t k v

/-- The marker phrase. -/
def markerStr : List Char := "Runes can't be added to this item".toList

/-- The radiant check of the scan loop (`src/main.py` lines 226–228): a
substring test against the raw line. -/
def applyMarker (line : List Char) (r : Record) : Record :=
  if containsSub line markerStr then setA r "Is Radiant" (.boolean true) else r

/-- One step of the generic per-key pass (`src/main.py` lines 231–235):
if the lowercased key occurs in the lowercased line and the line contains
a digit run, assign its value to the key as an integer. -/
def genStep (line : List Char) (r : Record) (k : String) : Record :=
  if containsSub (toLowerL line) (toLowerL k.toList) then
    match firstDigits line with
    | some ds => setA r k (.num (natOfDigits ds))
    | none => r
  else r

/-- The generic per-key pass (`src/main.py` lines 230–235) over every key
of the record. -/
def scanGeneric (line : List Char) (r : Record) : Record :=
  attrKeys.foldl (genStep line) r

/-- The `Item Quality` special case (`src/main.py` lines 238–240). -/
def applyQuality (line : List Char) (r : Record) : Record :=
  if containsSub (toLowerL line) ("quality".toList) then
    setA r "Item Quality" (.str (stripL (afterLastColon line))) else r

/-- The `Grade` special case (`src/main.py` lines 241–243). -/
def applyGrade (line : List Char) (r : Record) : Record :=
  if containsSub (toLowerL line) ("grade".toList) then
    setA r "Grade" (.str (stripL (afterLastColon line))) else r

/-- The `Item Quality` / `Grade` special cases (`src/main.py` lines
237–243), run after the generic pass on the same line. -/
def applySpecial (line : List Char) (r : Record) : Record :=
  applyGrade line (applyQuality line r)

/-- One iteration of the attribute-scan loop (`src/main.py` lines 225–243). -/
def scanLine (r : Record) (line : List Char) : Record :=
  applySpecial line (scanGeneric line (applyMarker line r))

/-- The whole attribute-scan loop. -/
def scanAll (lines : List (List Char)) (r : Record) : Record :=
  lines.foldl scanLine r

/-- Name extraction (`src/main.py` lines 203–208): the first line
different from the marker phrase. -/
def firstNonMarker : List (List Char) → Option (List Char)
  | [] => none
  | l :: t => if l ≠ markerStr then some l else firstNonMarker t

/-- The raw name candidate (`''` when no line qualifies, as in the source,
where `Name` then keeps its default). -/
def nameCandidate (lines : List (List Char)) : List Char :=
  (firstNonMarker lines).getD []

/-- The record after name extraction (`src/main.py` lines 203–208). -/
def nameExtracted (lines : List (List Char)) : Record :=
  match firstNonMarker lines with
  | some l => setA defaultAttributes "Name" (.str l)
  | none => defaultAttributes

/-- Name resolution (`src/main.py` lines 210–219): run only when a
candidate was extracted; the distances compare the lowercased candidate
with the lowercased keys; `min` over the keys of an empty dict raises
`ValueError`, modelled by `none`. -/
def resolveName (item_data : List (List Char × List Char)) (r : Record)
    (cand : List Char) : Option Record :=
  if cand ≠ [] then
    match argminBy (fun x => levenshtein_distance (toLowerL cand) (toLowerL x))
        (item_data.map Prod.fst) with
    | none => none
    | some closest =>
      if levenshtein_distance (toLowerL cand) (toLowerL closest) ≤ 5 then
        some (setA (setA r "Name" (.str closest)) "Item Type"
          (.str ((lookupA item_data closest).getD [])))
      else some r
  else some r

/-- The description pick (`src/main.py` lines 246–250): the last line that
does not contain any schema key case-insensitively and is not the marker
line. -/
def descrLine (lines : List (List Char)) : Option (List Char) :=
  lines.reverse.find?
    (fun l => !(attrKeys.any fun k => containsSub (toLowerL l) (toLowerL k.toList))
      && l ≠ markerStr)

/-- Write the picked description, if any (`src/main.py` lines 246–250). -/
def applyDescription (lines : List (List Char)) (r : Record) : Record :=
  match descrLine lines with
  | some l => setA r "Description" (.str l)
  | none => r

/-- `parse_attributes` of `src/main.py` (lines 146–252).  `none` models
the `ValueError` that `min` raises on an empty catalog.  `column_names`
is a parameter of the source function that its body never reads. -/
def parse_attributes (text : List Char) (item_data : List (List Char × List Char))
    (column_names : List (List Char)) : Option Record :=
  if stripL text = [] then some defaultAttributes
  else
    match resolveName item_data (nameExtracted (splitLines text))
        (nameCandidate (splitLines text)) with
    | none => none
    | some r2 => some (applyDescription (splitLines text) (scanAll (splitLines text) r2))

/-- The textbook Levenshtein recurrence, with the unit-cost `min` written
uniformly; the specification against which `levenshtein_distance` is
verified. -/
def levSpec : List Char → List Char → Nat
  | [], ys => ys.length
  | x :: xs, [] => (x :: xs).length
  | x :: xs, y :: ys =>
      min (levSpec xs (y :: ys) + 1)
        (min (levSpec (x :: xs) ys + 1) (levSpec xs ys + (if x = y then 0 else 1)))

/-- One single-character edit: an insertion, a deletion or a substitution
at an arbitrary position. -/
inductive EditStep : List Char → List Char → Prop where
  | ins (l r : List Char) (a : Char) : EditStep (l ++ r) (l ++ a :: r)
  | del (l r : List Char) (a : Char) : EditStep (l ++ a :: r) (l ++ r)
  | subst (l r : List Char) (a b : Char) : EditStep (l ++ a :: r) (l ++ b :: r)

/-- `EditChain n xs ys`: `xs` is transformed into `ys` by exactly `n`
single-character edits. -/
inductive EditChain : Nat → List Char → List Char → Prop where
  | refl (xs : List Char) : EditChain 0 xs xs
  | step {n : Nat} {xs ys zs : List Char} :
      EditStep xs ys → EditChain n ys zs → EditChain (n + 1) xs zs

/-- The row of `levSpec` values at the prefixes of the second string: the
semantic contents of the dynamic programme's `previous_row` after the
characters of `p` have been consumed, starting at column `q`. -/
def rowFrom (p q : List Char) : List Char → List Nat
  | [] => [levSpec p q]
  | c :: rest => levSpec p q :: rowFrom p (q ++ [c]) rest

/-- The field of the record produced by a (possibly failing) parse. -/
def getField (o : Option Record) (k : String) : Option FVal :=
  o.bind (fun r => lookupA r k)

/-- Is the value a Python string? -/
def FVal.isStrB : FVal → Bool
  | .str _ => true
  | _ => false

/-- Is the value a Python int? -/
def FVal.isNumB : FVal → Bool
  | .num _ => true
  | _ => false

/-- Is the value a Python bool? -/
def FVal.isBoolB : FVal → Bool
  | .boolean _ => true
  | _ => false

/-- The type a field of the final record can actually hold, per key:
`Item Quality` and `Grade` are always strings; `Name`, `Item Type` and
`Description` are strings unless the generic scan overwrote them with an
integer; `Is Radiant` is a boolean unless likewise overwritten; every
other field is an integer. -/
def fieldOk (k : String) (v : FVal) : Bool :=
  if k = "Item Quality" ∨ k = "Grade" then v.isStrB
  else if k = "Name" ∨ k = "Item Type" ∨ k = "Description" then
    v.isStrB || v.isNumB
  else if k = "Is Radiant" then v.isBoolB || v.isNumB
  else v.isNumB

/-- Every field of the record satisfies its `fieldOk` typing. -/
def RecOk (r : Record) : Prop := ∀ kv ∈ r, fieldOk kv.1 kv.2 = true

/-- A one-entry catalog whose key is far (edit distance above every
threshold) from the texts used in concrete instances. -/
def zKey : List Char := "Zzzzzzzzzzzz".toList

/-- The catalog used by concrete instances. -/
def catZ : List (List Char × List Char) := [(zKey, "T".toList)]

/-! ### Basic lemmas about the helper functions -/

theorem startsWithL_iff (needle hay : List Char) :
    startsWithL needle hay = true ↔ ∃ s, hay = needle ++ s := by
  induction needle generalizing hay with
  | nil => simp [startsWithL]
  | cons a as ih =>
    cases hay with
    | nil => simp [startsWithL]
    | cons b bs =>
      simp only [startsWithL, Bool.and_eq_true, decide_eq_true_eq, ih,
        List.cons_append, List.cons.injEq]
      constructor
      · rintro ⟨rfl, s, rfl⟩
        exact ⟨s, rfl, rfl⟩
      · rintro ⟨s, rfl, rfl⟩
        exact ⟨rfl, s, rfl⟩

theorem containsSub_iff (hay needle : List Char) :
    containsSub hay needle = true ↔ ∃ p s, hay = p ++ (needle ++ s) := by
  induction hay with
  | nil =>
    simp only [containsSub, startsWithL_iff]
    constructor
    · rintro ⟨s, h⟩
      exact ⟨[], s, h⟩
    · rintro ⟨p, s, h⟩
      rcases List.append_eq_nil.mp h.symm with ⟨rfl, h2⟩
      exact ⟨s, by simpa using h⟩
  | cons c t ih =>
    simp only [containsSub, Bool.or_eq_true, startsWithL_iff, ih]
    constructor
    · rintro (⟨s, h⟩ | ⟨p, s, h⟩)
      · exact ⟨[], s, by simpa using h⟩
      · exact ⟨c :: p, s, by simp [h]⟩
    · rintro ⟨p, s, h⟩
      cases p with
      | nil => exact Or.inl ⟨s, by simpa using h⟩
      | cons d p' =>
        rcases List.cons_eq_cons.mp h with ⟨rfl, h2⟩
        exact Or.inr ⟨p', s, h2⟩

/-- Substring containment is transitive through a fixed decomposition: if a
line contains `"item quality"` it contains `"quality"`. -/
theorem containsSub_of_containsSub_append (hay p needle : List Char)
    (h : containsSub hay (p ++ needle) = true) : containsSub hay needle = true := by
  rcases (containsSub_iff _ _).mp h with ⟨l, s, rfl⟩
  exact (containsSub_iff _ _).mpr ⟨l ++ p, s, by simp⟩

theorem argminBy_eq_none {α : Type} (f : α → Nat) (l : List α) :
    argminBy f l = none ↔ l = [] := by
  cases l with
  | nil => simp [argminBy]
  | cons a t =>
    simp only [argminBy]
    rcases argminBy f t with _ | y
    · simp
    · by_cases hle : f a ≤ f y <;> simp [hle]

theorem argminBy_mem {α : Type} (f : α → Nat) (l : List α) (x : α)
    (h : argminBy f l = some x) : x ∈ l := by
  induction l generalizing x with
  | nil => simp [argminBy] at h
  | cons a t ih =>
    rcases ht : argminBy f t with _ | y
    · simp only [argminBy, ht, Option.some.injEq] at h
      subst h
      exact List.mem_cons_self a t
    · simp only [argminBy, ht] at h
      by_cases hle : f a ≤ f y
      · simp only [if_pos hle, Option.some.injEq] at h
        subst h
        exact List.mem_cons_self a t
      · simp only [if_neg hle, Option.some.injEq] at h
        subst h
        exact List.mem_cons_of_mem a (ih y ht)

theorem argminBy_le {α : Type} (f : α → Nat) (l : List α) (x : α)
    (h : argminBy f l = some x) : ∀ y ∈ l, f x ≤ f y := by
  induction l generalizing x with
  | nil => simp [argminBy] at h
  | cons a t ih =>
    intro z hz
    rcases ht : argminBy f t with _ | y
    · have h0 : t = [] := (argminBy_eq_none f t).mp ht
      subst h0
      simp only [argminBy, Option.some.injEq] at h
      subst h
      simp only [List.mem_singleton] at hz
      subst hz
      exact Nat.le_refl _
    · simp only [argminBy, ht] at h
      rcases List.mem_cons.mp hz with heq | hzt
      · rw [heq]
        by_cases hle : f a ≤ f y
        · simp only [if_pos hle, Option.some.injEq] at h
          subst h
          exact Nat.le_refl _
        · simp only [if_neg hle, Option.some.injEq] at h
          subst h
          exact Nat.le_of_lt (Nat.lt_of_not_le hle)
      · by_cases hle : f a ≤ f y
        · simp only [if_pos hle, Option.some.injEq] at h
          subst h
          exact Nat.le_trans hle (ih y ht z hzt)
        · simp only [if_neg hle, Option.some.injEq] at h
          subst h
          exact ih y ht z hzt

theorem argminBy_isSome {α : Type} (f : α → Nat) (l : List α) (h : l ≠ []) :
    (argminBy f l).isSome = true := by
  cases l with
  | nil => simp at h
  | cons a t =>
    simp only [argminBy]
    cases argminBy f t with
    | none => rfl
    | some y => by_cases hle : f a ≤ f y <;> simp [hle]

/-! ### Lemmas about the record -/

theorem setA_keys (r : Record) (k : String) (v : FVal) :
    (setA r k v).map Prod.fst = r.map Prod.fst := by
  induction r with
  | nil => rfl
  | cons kv t ih =>
    obtain ⟨k', v'⟩ := kv
    by_cases h : k' = k <;> simp [setA, h, ih]

theorem lookupA_setA_self {r : Record} {k : String} (v : FVal)
    (h : k ∈ r.map Prod.fst) : lookupA (setA r k v) k = some v := by
  induction r with
  | nil => simp at h
  | cons kv t ih =>
    obtain ⟨k', v'⟩ := kv
    by_cases hk : k' = k
    · subst hk; simp [setA, lookupA]
    · simp only [List.map_cons, List.mem_cons] at h
      rcases h with h | h
      · exact absurd h.symm hk
      · simp [setA, hk, lookupA, ih h]

theorem lookupA_setA_ne (r : Record) {k k' : String} (v : FVal) (h : k ≠ k') :
    lookupA (setA r k' v) k = lookupA r k := by
  induction r with
  | nil => rfl
  | cons kv t ih =>
    obtain ⟨k'', v''⟩ := kv
    by_cases hk : k'' = k'
    · subst hk; simp [setA, lookupA, Ne.symm h]
    · simp [setA, hk, lookupA, ih]

theorem mem_keys_of_lookupA {r : Record} {k : String} {v : FVal}
    (h : lookupA r k = some v) : k ∈ r.map Prod.fst := by
  induction r with
  | nil => simp [lookupA] at h
  | cons kv t ih =>
    obtain ⟨k', v'⟩ := kv
    by_cases hk : k' = k
    · simp [hk]
    · simp only [lookupA, if_neg hk] at h
      simp [ih h]

theorem lookupA_isSome_of_mem_keys {α β : Type} [DecidableEq α]
    {l : List (α × β)} {k : α} (h : k ∈ l.map Prod.fst) :
    ∃ v, lookupA l k = some v := by
  induction l with
  | nil => simp at h
  | cons kv t ih =>
    obtain ⟨k', v'⟩ := kv
    by_cases hk : k' = k
    · exact ⟨v', by simp [lookupA, hk]⟩
    · simp only [List.map_cons, List.mem_cons] at h
      rcases h with h | h
      · exact absurd h.symm hk
      · obtain ⟨v, hv⟩ := ih h
        exact ⟨v, by simp [lookupA, hk, hv]⟩

/-! ### Key preservation through the parser's stages -/

theorem applyMarker_keys (line : List Char) (r : Record) :
    (applyMarker line r).map Prod.fst = r.map Prod.fst := by
  unfold applyMarker
  split <;> simp [setA_keys]

theorem genStep_keys (line : List Char) (r : Record) (k : String) :
    (genStep line r k).map Prod.fst = r.map Prod.fst := by
  unfold genStep
  split
  · cases firstDigits line <;> simp [setA_keys]
  · rfl

theorem foldl_genStep_keys (line : List Char) (L : List String) (r : Record) :
    (L.foldl (genStep line) r).map Prod.fst = r.map Prod.fst := by
  induction L generalizing r with
  | nil => rfl
  | cons k L ih => rw [List.foldl_cons, ih, genStep_keys]

theorem scanGeneric_keys (line : List Char) (r : Record) :
    (scanGeneric line r).map Prod.fst = r.map Prod.fst :=
  foldl_genStep_keys line attrKeys r

theorem applyQuality_keys (line : List Char) (r : Record) :
    (applyQuality line r).map Prod.fst = r.map Prod.fst := by
  unfold applyQuality
  split <;> simp [setA_keys]

theorem applyGrade_keys (line : List Char) (r : Record) :
    (applyGrade line r).map Prod.fst = r.map Prod.fst := by
  unfold applyGrade
  split <;> simp [setA_keys]

theorem scanLine_keys (r : Record) (line : List Char) :
    (scanLine r line).map Prod.fst = r.map Prod.fst := by
  unfold scanLine applySpecial
  rw [applyGrade_keys, applyQuality_keys, scanGeneric_keys, applyMarker_keys]

theorem scanAll_keys (lines : List (List Char)) (r : Record) :
    (scanAll lines r).map Prod.fst = r.map Prod.fst := by
  induction lines generalizing r with
  | nil => rfl
  | cons l ls ih =>
    show ((l :: ls).foldl scanLine r).map Prod.fst = r.map Prod.fst
    rw [List.foldl_cons]
    show (scanAll ls (scanLine r l)).map Prod.fst = r.map Prod.fst
    rw [ih, scanLine_keys]

theorem applyDescription_keys (lines : List (List Char)) (r : Record) :
    (applyDescription lines r).map Prod.fst = r.map Prod.fst := by
  unfold applyDescription
  cases descrLine lines <;> simp [setA_keys]

theorem nameExtracted_keys (lines : List (List Char)) :
    (nameExtracted lines).map Prod.fst = attrKeys := by
  unfold nameExtracted
  cases firstNonMarker lines <;> simp [setA_keys, attrKeys]

theorem resolveName_keys {item_data : List (List Char × List Char)} {r r2 : Record}
    {cand : List Char} (h : resolveName item_data r cand = some r2) :
    r2.map Prod.fst = r.map Prod.fst := by
  unfold resolveName at h
  split at h
  · split at h
    · cases h
    · split at h
      · cases h
        rw [setA_keys, setA_keys]
      · cases h
        rfl
  · cases h
    rfl

theorem resolveName_nil_cand (item_data : List (List Char × List Char)) (r : Record) :
    resolveName item_data r [] = some r := by
  simp [resolveName]

theorem resolveName_isSome_of_ne_nil (item_data : List (List Char × List Char))
    (r : Record) (cand : List Char) (h : item_data ≠ []) :
    (resolveName item_data r cand).isSome = true := by
  unfold resolveName
  split
  · have hkeys : item_data.map Prod.fst ≠ [] := by
      cases item_data with
      | nil => exact absurd rfl h
      | cons a t => simp
    rcases hmin : argminBy (fun x => levenshtein_distance (toLowerL cand) (toLowerL x))
        (item_data.map Prod.fst) with _ | closest
    · exact absurd ((argminBy_eq_none _ _).mp hmin) hkeys
    · simp only [hmin]
      split <;> rfl
  · rfl

/-- The keys of any successfully parsed record are exactly the schema
keys, in order. -/
theorem parse_attributes_keys {text : List Char}
    {item_data : List (List Char × List Char)} {column_names : List (List Char)}
    {r : Record} (hr : parse_attributes text item_data column_names = some r) :
    r.map Prod.fst = attrKeys := by
  unfold parse_attributes at hr
  split at hr
  · cases hr
    rfl
  · rcases hres : resolveName item_data (nameExtracted (splitLines text))
        (nameCandidate (splitLines text)) with _ | r2
    · rw [hres] at hr
      cases hr
    · rw [hres] at hr
      cases hr
      rw [applyDescription_keys, scanAll_keys, resolveName_keys hres,
        nameExtracted_keys]

/-- `parse_attributes` cannot raise unless the catalog is empty and a name
candidate exists. -/
theorem parse_attributes_isSome_of (text : List Char)
    (item_data : List (List Char × List Char)) (column_names : List (List Char))
    (h : item_data ≠ [] ∨ stripL text = [] ∨ firstNonMarker (splitLines text) = none) :
    (parse_attributes text item_data column_names).isSome = true := by
  unfold parse_attributes
  split
  · rfl
  · rcases h with h | h | h
    · rcases hres : resolveName item_data (nameExtracted (splitLines text))
          (nameCandidate (splitLines text)) with _ | r2
      · have := resolveName_isSome_of_ne_nil item_data
          (nameExtracted (splitLines text)) (nameCandidate (splitLines text)) h
        rw [hres] at this
        cases this
      · simp [hres]
    · simp_all
    · have hcand : nameCandidate (splitLines text) = [] := by
        unfold nameCandidate
        rw [h]
        rfl
      rw [hcand, resolveName_nil_cand]
      rfl

/-! ### Claim C1 -/

/-- C1 counterexample: `parse_attributes` is not total.  On the input text
`"x"` with the empty catalog (and any column-name set), the `min` over the
keys of the empty dict at `src/main.py` line 212 raises `ValueError`,
modelled here by `none`. -/
theorem parse_attributes_raises_on_empty_catalog :
    parse_attributes "x".toList [] [] = none := by decide

/-! ### Claim C4 -/

/-- C4: `validate_item_name` implements the four-step decision procedure,
first match wins: a column-name candidate yields `("", "")`; an empty
catalog returns the candidate unchanged with empty type; an exact catalog
key returns the key and its type; otherwise a catalog key minimising the
(case-sensitive) Levenshtein distance to the candidate is returned with
its type when that minimal distance is at most 3, and the raw candidate
with empty type otherwise. -/
theorem validate_item_name_decision_procedure (name : List Char)
    (item_data : List (List Char × List Char)) (column_names : List (List Char)) :
    (toLowerL name ∈ column_names →
      validate_item_name name item_data column_names = ([], [])) ∧
    (toLowerL name ∉ column_names → item_data = [] →
      validate_item_name name item_data column_names = (name, [])) ∧
    (toLowerL name ∉ column_names → ∀ ty, lookupA item_data name = some ty →
      validate_item_name name item_data column_names = (name, ty)) ∧
    (toLowerL name ∉ column_names → item_data ≠ [] → lookupA item_data name = none →
      ∃ closest ty, closest ∈ item_data.map Prod.fst ∧
        lookupA item_data closest = some ty ∧
        (∀ k ∈ item_data.map Prod.fst,
          levenshtein_distance name closest ≤ levenshtein_distance name k) ∧
        validate_item_name name item_data column_names =
          (if levenshtein_distance name closest ≤ 3 then (closest, ty)
           else (name, []))) := by
  refine ⟨?_, ?_, ?_, ?_⟩
  · intro h
    simp [validate_item_name, h]
  · intro h h2
    simp [validate_item_name, h, h2]
  · intro h ty hty
    have hne : item_data ≠ [] := by
      rintro rfl
      simp [lookupA] at hty
    simp [validate_item_name, h, hne, hty]
  · intro h hne hnone
    have hkeys : item_data.map Prod.fst ≠ [] := by
      cases item_data with
      | nil => exact absurd rfl hne
      | cons a t => simp
    obtain ⟨closest, hcl⟩ := Option.isSome_iff_exists.mp
      (argminBy_isSome (fun x => levenshtein_distance name x) _ hkeys)
    obtain ⟨ty, hty⟩ := lookupA_isSome_of_mem_keys (argminBy_mem _ _ _ hcl)
    refine ⟨closest, ty, argminBy_mem _ _ _ hcl, hty,
      argminBy_le _ _ _ hcl, ?_⟩
    simp [validate_item_name, h, hne, hnone, hcl, hty]

/-- Witness for C4 at the spec's exact-match example. -/
theorem validate_item_name_decision_procedure_witness :
    validate_item_name "Iron Sword".toList [("Iron Sword".toList, "Weapon".toList)]
      ["name".toList] = ("Iron Sword".toList, "Weapon".toList) :=
  (validate_item_name_decision_procedure "Iron Sword".toList
    [("Iron Sword".toList, "Weapon".toList)] ["name".toList]).2.2.1
    (by decide) "Weapon".toList (by decide)

/-! ### Claim C10 -/

/-- C10: the output of `parse_attributes` does not depend on the
`column_names` argument; the body of the source function never reads it. -/
theorem parse_attributes_ignores_column_names (text : List Char)
    (item_data : List (List Char × List Char)) (cns1 cns2 : List (List Char)) :
    parse_attributes text item_data cns1 = parse_attributes text item_data cns2 := rfl

/-! ### Claim C2 -/

/-- C2 counterexample: `Name` has a string schema default, but on the text
`"Name 5"` the generic scan (`src/main.py` line 234) overwrites it with
the integer `5`, because the label `"name"` occurs in the line. -/
theorem parse_attributes_makes_name_an_int :
    getField (parse_attributes "Name 5".toList catZ []) "Name" = some (.num 5) ∧
    lookupA defaultAttributes "Name" = some (.str []) := by decide

/-! ### Claim C3 -/

/-- C3 counterexample: the `Name` field of `parse_attributes` can be a
case-insensitive member of the column-name set: the parser never consults
that set. -/
theorem parse_attributes_name_in_column_set :
    getField (parse_attributes "Foo".toList catZ ["foo".toList]) "Name" =
      some (.str "Foo".toList) ∧
    toLowerL "Foo".toList ∈ ["foo".toList] := by decide

/-- C3 (amended): `parse_attributes` never consults the column-name set
(its output is identical for every set), so its `Name` field can be a
member of the set; the column-name exclusion exists only in
`validate_item_name`, which maps any candidate whose lowercase form is in
the set to `("", "")` — and which `parse_attributes` never calls. -/
theorem column_guard_only_in_validator (text name : List Char)
    (item_data : List (List Char × List Char)) (column_names : List (List Char)) :
    parse_attributes text item_data column_names = parse_attributes text item_data [] ∧
    (toLowerL name ∈ column_names →
      validate_item_name name item_data column_names = ([], [])) := by
  refine ⟨rfl, fun h => ?_⟩
  simp [validate_item_name, h]

/-- Witness for C3's amended theorem at a concrete input. -/
theorem column_guard_only_in_validator_witness :
    validate_item_name "name".toList [("Iron Sword".toList, "Weapon".toList)]
      ["name".toList] = ([], []) :=
  (column_guard_only_in_validator [] "name".toList
    [("Iron Sword".toList, "Weapon".toList)] ["name".toList]).2 (by decide)

/-! ### Claim C5 -/

/-- C5 counterexample: the name-extraction fuzzy match compares lowercased
strings (`src/main.py` lines 212–213).  For the OCR text `"IRON SWORD"`
and the catalog key `"iron sword"` the (case-sensitive) edit distance
between candidate and key is 10, far above 5 — so the claim says `Name`
keeps the raw OCR line — yet the code replaces `Name` with the key. -/
theorem name_resolution_is_case_insensitive :
    5 < levenshtein_distance "IRON SWORD".toList "iron sword".toList ∧
    getField (parse_attributes "IRON SWORD".toList
      [("iron sword".toList, "Weapon".toList)] []) "Name" =
        some (.str "iron sword".toList) := by decide

/-! ### Claim C7 -/

/-- C7 counterexample: on the line `"45 Attack Power"` the label matches
and no digits follow the label, yet the field is assigned `45` — the first
digit run anywhere in the line (`src/main.py` line 232) — not left at 0. -/
theorem numeric_extraction_digits_before_label :
    getField (parse_attributes "45 Attack Power".toList catZ []) "Attack Power" =
      some (.num 45) ∧ (45 : Nat) ≠ 0 := by decide

/-! ### Claim C8 -/

/-- C8 counterexample: the radiant check is a substring test
(`src/main.py` line 226).  A text none of whose lines is the exact marker
line still sets `Is Radiant` when a line merely contains the marker as a
substring. -/
theorem radiant_flag_set_by_substring :
    ((splitLines "Foo\nxRunes can't be added to this itemxy".toList).all
      (fun l => l != markerStr)) = true ∧
    getField (parse_attributes "Foo\nxRunes can't be added to this itemxy".toList
      catZ []) "Is Radiant" = some (.boolean true) := by decide

/-! ### Per-key effect of the scan loop -/

theorem lookupA_genStep_ne (line : List Char) (r : Record) {k a : String}
    (h : k ≠ a) : lookupA (genStep line r a) k = lookupA r k := by
  unfold genStep
  split
  · rcases firstDigits line with _ | ds
    · rfl
    · exact lookupA_setA_ne _ _ h
  · rfl

theorem genStep_nodigits (line : List Char) (r : Record) (k : String)
    (hfd : firstDigits line = none) : genStep line r k = r := by
  unfold genStep
  split
  · rw [hfd]
  · rfl

theorem scanGeneric_nodigits (line : List Char) (r : Record)
    (hfd : firstDigits line = none) : scanGeneric line r = r := by
  have hfold : ∀ (L : List String) (r : Record), L.foldl (genStep line) r = r := by
    intro L
    induction L with
    | nil => intro r; rfl
    | cons a L ih =>
      intro r
      rw [List.foldl_cons, genStep_nodigits line r a hfd, ih]
  exact hfold attrKeys r

theorem foldl_genStep_not_mem (line : List Char) (L : List String) (r : Record)
    (k : String) (h : k ∉ L) :
    lookupA (L.foldl (genStep line) r) k = lookupA r k := by
  induction L generalizing r with
  | nil => rfl
  | cons a L ih =>
    simp only [List.mem_cons, not_or] at h
    rw [List.foldl_cons, ih _ h.2, lookupA_genStep_ne line r h.1]

theorem foldl_genStep_noTrig {k : String} (line : List Char)
    (hno : containsSub (toLowerL line) (toLowerL k.toList) = false) :
    ∀ (L : List String) (r : Record),
      lookupA (L.foldl (genStep line) r) k = lookupA r k := by
  intro L
  induction L with
  | nil => intro r; rfl
  | cons a L ih =>
    intro r
    rw [List.foldl_cons, ih]
    by_cases hak : k = a
    · subst hak
      have hno2 : ¬ containsSub (toLowerL line) (toLowerL k.toList) = true := by
        intro hcontra
        rw [hcontra] at hno
        cases hno
      unfold genStep
      rw [if_neg hno2]
    · exact lookupA_genStep_ne line r hak

theorem scanGeneric_lookup_noTrig {k : String} (line : List Char) (r : Record)
    (hno : containsSub (toLowerL line) (toLowerL k.toList) = false) :
    lookupA (scanGeneric line r) k = lookupA r k :=
  foldl_genStep_noTrig line hno attrKeys r

theorem attrKeys_nodup : attrKeys.Nodup := by decide

theorem attrKeys_split {k : String} (hk : k ∈ attrKeys) :
    ∃ L1 L2, attrKeys = L1 ++ k :: L2 ∧ k ∉ L1 ∧ k ∉ L2 := by
  obtain ⟨L1, L2, hsplit⟩ := List.append_of_mem hk
  refine ⟨L1, L2, hsplit, ?_, ?_⟩
  · intro hmem
    have hnd := attrKeys_nodup
    rw [hsplit] at hnd
    rcases List.nodup_append.mp hnd with ⟨-, -, hdisj⟩
    exact hdisj hmem (List.mem_cons_self k L2)
  · intro hmem
    have hnd := attrKeys_nodup
    rw [hsplit] at hnd
    rcases List.nodup_append.mp hnd with ⟨-, hnd2, -⟩
    exact (List.nodup_cons.mp hnd2).1 hmem

theorem genStep_pos (line : List Char) (r : Record) (k : String)
    (htrig : containsSub (toLowerL line) (toLowerL k.toList) = true)
    {ds : List Char} (hds : firstDigits line = some ds) :
    genStep line r k = setA r k (.num (natOfDigits ds)) := by
  unfold genStep
  rw [if_pos htrig, hds]

theorem scanGeneric_lookup_pos (line : List Char) (r : Record) (k : String)
    (hkeys : r.map Prod.fst = attrKeys) (hk : k ∈ attrKeys)
    (htrig : containsSub (toLowerL line) (toLowerL k.toList) = true)
    {ds : List Char} (hds : firstDigits line = some ds) :
    lookupA (scanGeneric line r) k = some (.num (natOfDigits ds)) := by
  obtain ⟨L1, L2, hsplit, hn1, hn2⟩ := attrKeys_split hk
  unfold scanGeneric
  rw [hsplit, List.foldl_append, List.foldl_cons,
    foldl_genStep_not_mem line L2 _ k hn2, genStep_pos line _ k htrig hds]
  exact lookupA_setA_self _ (by rw [foldl_genStep_keys, hkeys]; exact hk)

theorem lookupA_applyMarker_ne (line : List Char) (r : Record) {k : String}
    (h : k ≠ "Is Radiant") : lookupA (applyMarker line r) k = lookupA r k := by
  unfold applyMarker
  split
  · exact lookupA_setA_ne _ _ h
  · rfl

theorem lookupA_applyQuality_ne (line : List Char) (r : Record) {k : String}
    (h : k ≠ "Item Quality") : lookupA (applyQuality line r) k = lookupA r k := by
  unfold applyQuality
  split
  · exact lookupA_setA_ne _ _ h
  · rfl

theorem lookupA_applyGrade_ne (line : List Char) (r : Record) {k : String}
    (h : k ≠ "Grade") : lookupA (applyGrade line r) k = lookupA r k := by
  unfold applyGrade
  split
  · exact lookupA_setA_ne _ _ h
  · rfl

theorem lookupA_applySpecial_ne (line : List Char) (r : Record) {k : String}
    (h1 : k ≠ "Item Quality") (h2 : k ≠ "Grade") :
    lookupA (applySpecial line r) k = lookupA r k := by
  unfold applySpecial
  rw [lookupA_applyGrade_ne _ _ h2, lookupA_applyQuality_ne _ _ h1]

/-- When a line contains `"quality"`, the special case is what the field
holds after the line's scan. -/
theorem scanLine_quality_set (r : Record) (line : List Char)
    (hkeys : r.map Prod.fst = attrKeys)
    (hq : containsSub (toLowerL line) ("quality".toList) = true) :
    lookupA (scanLine r line) "Item Quality" =
      some (.str (stripL (afterLastColon line))) := by
  have hk1 : (scanGeneric line (applyMarker line r)).map Prod.fst = attrKeys := by
    rw [scanGeneric_keys, applyMarker_keys, hkeys]
  show lookupA (applySpecial line (scanGeneric line (applyMarker line r)))
    "Item Quality" = _
  unfold applySpecial applyGrade
  split
  · rw [lookupA_setA_ne _ _ (by decide)]
    unfold applyQuality
    rw [if_pos hq]
    exact lookupA_setA_self _ (by rw [hk1]; decide)
  · unfold applyQuality
    rw [if_pos hq]
    exact lookupA_setA_self _ (by rw [hk1]; decide)

/-- When a line contains `"grade"`, the special case is what the field
holds after the line's scan. -/
theorem scanLine_grade_set (r : Record) (line : List Char)
    (hkeys : r.map Prod.fst = attrKeys)
    (hg : containsSub (toLowerL line) ("grade".toList) = true) :
    lookupA (scanLine r line) "Grade" =
      some (.str (stripL (afterLastColon line))) := by
  have hk2 : (applyQuality line (scanGeneric line (applyMarker line r))).map Prod.fst
      = attrKeys := by
    rw [applyQuality_keys, scanGeneric_keys, applyMarker_keys, hkeys]
  show lookupA (applySpecial line (scanGeneric line (applyMarker line r)))
    "Grade" = _
  unfold applySpecial applyGrade
  rw [if_pos hg]
  exact lookupA_setA_self _ (by rw [hk2]; decide)

/-- The scan of one line either leaves `Item Quality` unchanged or sets it
to a string: the generic pass can touch it only when its label
`"item quality"` occurs in the line, in which case the `"quality"` special
case overwrites it afterwards. -/
theorem scanLine_lookup_quality (r : Record) (line : List Char)
    (hkeys : r.map Prod.fst = attrKeys) :
    lookupA (scanLine r line) "Item Quality" = lookupA r "Item Quality" ∨
    ∃ s, lookupA (scanLine r line) "Item Quality" = some (.str s) := by
  by_cases hq : containsSub (toLowerL line) ("quality".toList) = true
  · exact Or.inr ⟨_, scanLine_quality_set r line hkeys hq⟩
  · left
    have hq' : containsSub (toLowerL line) ("quality".toList) = false := by
      simpa using hq
    have hiq : containsSub (toLowerL line) (toLowerL "Item Quality".toList) = false := by
      cases hcq : containsSub (toLowerL line) (toLowerL "Item Quality".toList) with
      | false => rfl
      | true =>
        exfalso
        have he : toLowerL "Item Quality".toList = "item ".toList ++ "quality".toList := by
          decide
        rw [he] at hcq
        rw [containsSub_of_containsSub_append _ _ _ hcq] at hq'
        cases hq'
    unfold scanLine applySpecial
    rw [lookupA_applyGrade_ne _ _ (by decide)]
    unfold applyQuality
    rw [if_neg hq, scanGeneric_lookup_noTrig _ _ hiq,
      lookupA_applyMarker_ne _ _ (by decide)]

/-- The scan of one line either leaves `Grade` unchanged or sets it to a
string: the generic pass's label for `Grade` is exactly the `"grade"`
trigger of the special case. -/
theorem scanLine_lookup_grade (r : Record) (line : List Char)
    (hkeys : r.map Prod.fst = attrKeys) :
    lookupA (scanLine r line) "Grade" = lookupA r "Grade" ∨
    ∃ s, lookupA (scanLine r line) "Grade" = some (.str s) := by
  by_cases hg : containsSub (toLowerL line) ("grade".toList) = true
  · exact Or.inr ⟨_, scanLine_grade_set r line hkeys hg⟩
  · left
    have hg' : containsSub (toLowerL line) ("grade".toList) = false := by
      simpa using hg
    have hgG : containsSub (toLowerL line) (toLowerL "Grade".toList) = false := by
      rw [show toLowerL "Grade".toList = "grade".toList from by decide]
      exact hg'
    unfold scanLine applySpecial applyGrade
    rw [if_neg hg, lookupA_applyQuality_ne _ _ (by decide),
      scanGeneric_lookup_noTrig _ _ hgG, lookupA_applyMarker_ne _ _ (by decide)]

/-- The scan of one line leaves `Is Radiant` unchanged, sets it to `True`
(the marker check), or sets it to an integer (the generic pass, whose
label `"is radiant"` can occur in a line with digits). -/
theorem scanLine_lookup_isRadiant (r : Record) (line : List Char)
    (hkeys : r.map Prod.fst = attrKeys) :
    lookupA (scanLine r line) "Is Radiant" = lookupA r "Is Radiant" ∨
    lookupA (scanLine r line) "Is Radiant" = some (.boolean true) ∨
    ∃ n, lookupA (scanLine r line) "Is Radiant" = some (.num n) := by
  have hmk : (applyMarker line r).map Prod.fst = attrKeys := by
    rw [applyMarker_keys, hkeys]
  unfold scanLine
  rw [lookupA_applySpecial_ne _ _ (by decide) (by decide)]
  by_cases htrig : containsSub (toLowerL line) (toLowerL "Is Radiant".toList) = true
  · rcases hfd : firstDigits line with _ | ds
    · rw [scanGeneric_nodigits _ _ hfd]
      unfold applyMarker
      split
      · exact Or.inr (Or.inl (lookupA_setA_self _ (by rw [hkeys]; decide)))
      · exact Or.inl rfl
    · exact Or.inr (Or.inr ⟨_, scanGeneric_lookup_pos line _ _ hmk (by decide) htrig hfd⟩)
  · rw [scanGeneric_lookup_noTrig _ _ (by simpa using htrig)]
    unfold applyMarker
    split
    · exact Or.inr (Or.inl (lookupA_setA_self _ (by rw [hkeys]; decide)))
    · exact Or.inl rfl

/-- The scan of one line leaves any other schema field unchanged or sets
it to an integer. -/
theorem scanLine_lookup_other (r : Record) (line : List Char) {k : String}
    (hkeys : r.map Prod.fst = attrKeys) (hk : k ∈ attrKeys)
    (h1 : k ≠ "Item Quality") (h2 : k ≠ "Grade") (h3 : k ≠ "Is Radiant") :
    lookupA (scanLine r line) k = lookupA r k ∨
    ∃ n, lookupA (scanLine r line) k = some (.num n) := by
  have hmk : (applyMarker line r).map Prod.fst = attrKeys := by
    rw [applyMarker_keys, hkeys]
  unfold scanLine
  rw [lookupA_applySpecial_ne _ _ h1 h2]
  by_cases htrig : containsSub (toLowerL line) (toLowerL k.toList) = true
  · rcases hfd : firstDigits line with _ | ds
    · rw [scanGeneric_nodigits _ _ hfd, lookupA_applyMarker_ne _ _ h3]
      exact Or.inl rfl
    · exact Or.inr ⟨_, scanGeneric_lookup_pos line _ k hmk hk htrig hfd⟩
  · rw [scanGeneric_lookup_noTrig _ _ (by simpa using htrig),
      lookupA_applyMarker_ne _ _ h3]
    exact Or.inl rfl

/-! ### The typing invariant -/

theorem lookupA_mem {α β : Type} [DecidableEq α] {l : List (α × β)} {k : α} {v : β}
    (h : lookupA l k = some v) : (k, v) ∈ l := by
  induction l with
  | nil => simp [lookupA] at h
  | cons kv t ih =>
    obtain ⟨k', v'⟩ := kv
    by_cases hk : k' = k
    · subst hk
      have hv : v' = v := by simpa [lookupA] using h
      subst hv
      exact List.mem_cons_self _ _
    · simp only [lookupA, if_neg hk] at h
      exact List.mem_cons_of_mem _ (ih h)

theorem lookupA_eq_of_mem {α β : Type} [DecidableEq α] {l : List (α × β)}
    (hnd : (l.map Prod.fst).Nodup) {k : α} {v : β} (h : (k, v) ∈ l) :
    lookupA l k = some v := by
  induction l with
  | nil => simp at h
  | cons kv t ih =>
    obtain ⟨k', v'⟩ := kv
    rcases List.mem_cons.mp h with heq | ht
    · injection heq with h1 h2
      subst h1
      subst h2
      simp [lookupA]
    · have hk : k' ≠ k := by
        rintro rfl
        have hmem : k' ∈ t.map Prod.fst := by
          simpa using List.mem_map_of_mem Prod.fst ht
        simp only [List.map_cons, List.nodup_cons] at hnd
        exact hnd.1 hmem
      simp only [lookupA, if_neg hk]
      exact ih (by simp only [List.map_cons, List.nodup_cons] at hnd; exact hnd.2) ht

theorem fieldOk_num {k : String} (n : Nat) (h1 : k ≠ "Item Quality")
    (h2 : k ≠ "Grade") : fieldOk k (.num n) = true := by
  unfold fieldOk
  rw [if_neg (by simp [h1, h2])]
  split
  · rfl
  · split
    · rfl
    · rfl

theorem fieldOk_str_name3 {k : String}
    (h : k = "Name" ∨ k = "Item Type" ∨ k = "Description") (s : List Char) :
    fieldOk k (.str s) = true := by
  rcases h with rfl | rfl | rfl <;> rfl

theorem RecOk_default : RecOk defaultAttributes := by
  unfold RecOk
  decide

theorem mem_setA {r : Record} {k : String} {v : FVal} {kv : String × FVal}
    (h : kv ∈ setA r k v) : kv ∈ r ∨ kv = (k, v) := by
  induction r with
  | nil => simp [setA] at h
  | cons kv' t ih =>
    obtain ⟨k', v'⟩ := kv'
    by_cases hk : k' = k
    · subst hk
      simp only [setA, if_pos rfl] at h
      rcases List.mem_cons.mp h with heq | ht2
      · exact Or.inr heq
      · exact Or.inl (List.mem_cons_of_mem _ ht2)
    · simp only [setA, if_neg hk] at h
      rcases List.mem_cons.mp h with heq | ht2
      · exact Or.inl (heq ▸ List.mem_cons_self _ _)
      · rcases ih ht2 with hl | hr
        · exact Or.inl (List.mem_cons_of_mem _ hl)
        · exact Or.inr hr

theorem RecOk_setA {r : Record} (hok : RecOk r) {k : String} {v : FVal}
    (hv : fieldOk k v = true) : RecOk (setA r k v) := by
  intro kv hkv
  rcases mem_setA hkv with hr | heq
  · exact hok kv hr
  · rw [heq]
    exact hv

theorem scanLine_RecOk {r : Record} (hkeys : r.map Prod.fst = attrKeys)
    (hok : RecOk r) (line : List Char) : RecOk (scanLine r line) := by
  intro kv hkv
  obtain ⟨k, v⟩ := kv
  have hknd : ((scanLine r line).map Prod.fst).Nodup := by
    rw [scanLine_keys, hkeys]
    exact attrKeys_nodup
  have hlv : lookupA (scanLine r line) k = some v := lookupA_eq_of_mem hknd hkv
  have hk : k ∈ attrKeys := by
    rw [← hkeys, ← scanLine_keys r line]
    simpa using List.mem_map_of_mem Prod.fst hkv
  have hold : ∀ v0, lookupA r k = some v0 → fieldOk k v0 = true := fun v0 h0 =>
    hok (k, v0) (lookupA_mem h0)
  by_cases hQ : k = "Item Quality"
  · subst hQ
    rcases scanLine_lookup_quality r line hkeys with heq | ⟨s, hs⟩
    · rw [heq] at hlv
      exact hold v hlv
    · rw [hs] at hlv
      injection hlv with hv
      subst hv
      rfl
  · by_cases hG : k = "Grade"
    · subst hG
      rcases scanLine_lookup_grade r line hkeys with heq | ⟨s, hs⟩
      · rw [heq] at hlv
        exact hold v hlv
      · rw [hs] at hlv
        injection hlv with hv
        subst hv
        rfl
    · by_cases hR : k = "Is Radiant"
      · subst hR
        rcases scanLine_lookup_isRadiant r line hkeys with heq | htrue | ⟨n, hn⟩
        · rw [heq] at hlv
          exact hold v hlv
        · rw [htrue] at hlv
          injection hlv with hv
          subst hv
          rfl
        · rw [hn] at hlv
          injection hlv with hv
          subst hv
          rfl
      · rcases scanLine_lookup_other r line hkeys hk hQ hG hR with heq | ⟨n, hn⟩
        · rw [heq] at hlv
          exact hold v hlv
        · rw [hn] at hlv
          injection hlv with hv
          subst hv
          exact fieldOk_num n hQ hG

theorem scanAll_RecOk {r : Record} (hkeys : r.map Prod.fst = attrKeys)
    (hok : RecOk r) (lines : List (List Char)) : RecOk (scanAll lines r) := by
  induction lines generalizing r with
  | nil => exact hok
  | cons l ls ih =>
    show RecOk ((l :: ls).foldl scanLine r)
    rw [List.foldl_cons]
    exact ih (by rw [scanLine_keys, hkeys]) (scanLine_RecOk hkeys hok l)

theorem RecOk_nameExtracted (lines : List (List Char)) :
    RecOk (nameExtracted lines) := by
  unfold nameExtracted
  cases firstNonMarker lines with
  | none => exact RecOk_default
  | some l => exact RecOk_setA RecOk_default (fieldOk_str_name3 (Or.inl rfl) l)

theorem RecOk_resolveName {item_data : List (List Char × List Char)}
    {r r2 : Record} {cand : List Char} (hok : RecOk r)
    (h : resolveName item_data r cand = some r2) : RecOk r2 := by
  unfold resolveName at h
  split at h
  · split at h
    · cases h
    · split at h
      · cases h
        exact RecOk_setA (RecOk_setA hok (fieldOk_str_name3 (Or.inl rfl) _))
          (fieldOk_str_name3 (Or.inr (Or.inl rfl)) _)
      · cases h
        exact hok
  · cases h
    exact hok

theorem RecOk_applyDescription {r : Record} (hok : RecOk r)
    (lines : List (List Char)) : RecOk (applyDescription lines r) := by
  unfold applyDescription
  cases descrLine lines with
  | none => exact hok
  | some l => exact RecOk_setA hok (fieldOk_str_name3 (Or.inr (Or.inr rfl)) l)

theorem parse_attributes_RecOk {text : List Char}
    {item_data : List (List Char × List Char)} {column_names : List (List Char)}
    {r : Record} (hr : parse_attributes text item_data column_names = some r) :
    RecOk r := by
  unfold parse_attributes at hr
  split at hr
  · cases hr
    exact RecOk_default
  · rcases hres : resolveName item_data (nameExtracted (splitLines text))
        (nameCandidate (splitLines text)) with _ | r2
    · rw [hres] at hr
      cases hr
    · rw [hres] at hr
      cases hr
      exact RecOk_applyDescription
        (scanAll_RecOk
          (by rw [resolveName_keys hres, nameExtracted_keys])
          (RecOk_resolveName (RecOk_nameExtracted _) hres) _) _

/-! ### Claim C2 (amended theorem) and Claim C7 (amended theorem) -/

/-- C2 (amended): every integer-schema field of a parsed record holds an
integer, and `Item Quality` and `Grade` always hold strings; however
`Name`, `Item Type` and `Description` hold a string or an integer, and
`Is Radiant` a boolean or an integer, because the generic scan can
overwrite them when a line contains their label together with a digit. -/
theorem field_types_stable (text : List Char)
    (item_data : List (List Char × List Char)) (column_names : List (List Char))
    (k : String) (v : FVal)
    (h : getField (parse_attributes text item_data column_names) k = some v) :
    fieldOk k v = true := by
  unfold getField at h
  rcases hp : parse_attributes text item_data column_names with _ | r
  · rw [hp] at h
    cases h
  · rw [hp] at h
    simp only [Option.some_bind] at h
    exact parse_attributes_RecOk hp (k, v) (lookupA_mem h)

/-- Witness for C2's amended theorem at a concrete input. -/
theorem field_types_stable_witness : fieldOk "Attack Power" (.num 45) = true :=
  field_types_stable "Attack Power 45".toList catZ [] "Attack Power" (.num 45)
    (by decide)

/-- C7 (amended): for a line containing an attribute's label
case-insensitively, the generic pass assigns that attribute the integer
value of the first run of decimal digits found anywhere in the line, and
leaves the field unchanged when the line has no digits at all (not merely
none after the label); the line `"Attack Power 45"` yields
`Attack Power = 45`. -/
theorem numeric_extraction (line : List Char) (r : Record) (k : String)
    (hkeys : r.map Prod.fst = attrKeys) (hk : k ∈ attrKeys)
    (htrig : containsSub (toLowerL line) (toLowerL k.toList) = true) :
    (∀ ds, firstDigits line = some ds →
      lookupA (scanGeneric line r) k = some (.num (natOfDigits ds))) ∧
    (firstDigits line = none → lookupA (scanGeneric line r) k = lookupA r k) ∧
    getField (parse_attributes "Attack Power 45".toList catZ []) "Attack Power" =
      some (.num 45) := by
  refine ⟨fun ds hds => scanGeneric_lookup_pos line r k hkeys hk htrig hds,
    fun hfd => ?_, by decide⟩
  rw [scanGeneric_nodigits line r hfd]

/-- Witness for C7's amended theorem at a concrete line. -/
theorem numeric_extraction_witness :
    lookupA (scanGeneric "Attack Power 45".toList defaultAttributes) "Attack Power" =
      some (.num (natOfDigits ['4', '5'])) :=
  (numeric_extraction "Attack Power 45".toList defaultAttributes "Attack Power" rfl
    (by decide) (by decide)).1 ['4', '5'] (by decide)

/-! ### Claim C9 -/

/-- C9: a line containing `"quality"` case-insensitively sets
`Item Quality` to the trimmed text after the line's last colon, and a line
containing `"grade"` sets `Grade` likewise; the special-case assignments
run after (in addition to, not instead of) the generic numeric pass on the
same line, so theirs is the value that persists for these fields. -/
theorem quality_grade_special_case (r : Record) (line : List Char)
    (hkeys : r.map Prod.fst = attrKeys) :
    (containsSub (toLowerL line) ("quality".toList) = true →
      lookupA (scanLine r line) "Item Quality" =
        some (.str (stripL (afterLastColon line)))) ∧
    (containsSub (toLowerL line) ("grade".toList) = true →
      lookupA (scanLine r line) "Grade" =
        some (.str (stripL (afterLastColon line)))) ∧
    scanLine r line = applySpecial line (scanGeneric line (applyMarker line r)) :=
  ⟨fun hq => scanLine_quality_set r line hkeys hq,
   fun hg => scanLine_grade_set r line hkeys hg, rfl⟩

/-- Witness for C9 at a concrete line. -/
theorem quality_grade_special_case_witness :
    lookupA (scanLine defaultAttributes "Quality: Rare".toList) "Item Quality" =
      some (.str (stripL (afterLastColon "Quality: Rare".toList))) :=
  (quality_grade_special_case defaultAttributes "Quality: Rare".toList rfl).1 (by decide)

/-! ### Lines, the name candidate and the marker -/

theorem splitLines_mem_ne_nil {text l : List Char} (h : l ∈ splitLines text) :
    l ≠ [] := by
  unfold splitLines at h
  simp only [List.mem_filter] at h
  simpa using h.2

theorem firstNonMarker_some {ls : List (List Char)} {l : List Char}
    (h : firstNonMarker ls = some l) :
    ∃ pre rest, ls = pre ++ l :: rest ∧ (∀ p ∈ pre, p = markerStr) ∧
      l ≠ markerStr := by
  induction ls with
  | nil => cases h
  | cons a t ih =>
    by_cases ha : a ≠ markerStr
    · simp only [firstNonMarker] at h
      rw [if_pos ha] at h
      injection h with h2
      subst h2
      exact ⟨[], t, rfl, by simp, ha⟩
    · have ham := not_not.mp ha
      simp only [firstNonMarker] at h
      rw [if_neg ha] at h
      obtain ⟨pre, rest, hsp, hpre, hl⟩ := ih h
      refine ⟨a :: pre, rest, by rw [hsp]; rfl, ?_, hl⟩
      intro p hp
      rcases List.mem_cons.mp hp with heq | hpt
      · rw [heq]
        exact ham
      · exact hpre p hpt

theorem firstNonMarker_none {ls : List (List Char)} (h : firstNonMarker ls = none) :
    ∀ l ∈ ls, l = markerStr := by
  induction ls with
  | nil => simp
  | cons a t ih =>
    intro l hl
    by_cases ha : a ≠ markerStr
    · simp only [firstNonMarker] at h
      rw [if_pos ha] at h
      cases h
    · have ham := not_not.mp ha
      simp only [firstNonMarker] at h
      rw [if_neg ha] at h
      rcases List.mem_cons.mp hl with heq | hlt
      · rw [heq]
        exact ham
      · exact ih h l hlt

theorem mem_of_mem_splitOnP {p : Char → Bool} {l seg : List Char}
    (hseg : seg ∈ l.splitOnP p) {c : Char} (hc : c ∈ seg) : c ∈ l := by
  induction l generalizing seg with
  | nil =>
    rw [List.splitOnP_nil] at hseg
    simp only [List.mem_singleton] at hseg
    subst hseg
    simp at hc
  | cons x xs ih =>
    rw [List.splitOnP_cons] at hseg
    by_cases hp : p x = true
    · rw [if_pos hp] at hseg
      rcases List.mem_cons.mp hseg with heq | hseg2
      · subst heq
        simp at hc
      · exact List.mem_cons_of_mem _ (ih hseg2 hc)
    · rw [if_neg hp] at hseg
      rcases hsp : xs.splitOnP p with _ | ⟨h0, t0⟩
      · exact absurd hsp (List.splitOnP_ne_nil _ _)
      · rw [hsp] at hseg
        simp only [List.modifyHead] at hseg
        rcases List.mem_cons.mp hseg with heq | hseg2
        · subst heq
          rcases List.mem_cons.mp hc with heq2 | hch
          · rw [heq2]
            exact List.mem_cons_self _ _
          · exact List.mem_cons_of_mem _
              (ih (by rw [hsp]; exact List.mem_cons_self _ _) hch)
        · exact List.mem_cons_of_mem _
            (ih (by rw [hsp]; exact List.mem_cons_of_mem _ hseg2) hc)

theorem all_whitespace_of_stripL_eq_nil {l : List Char} (h : stripL l = []) :
    ∀ c ∈ l, c.isWhitespace = true := by
  unfold stripL at h
  rw [List.reverse_eq_nil_iff, List.dropWhile_eq_nil_iff] at h
  intro c hc
  rcases List.mem_append.mp
      (by rw [List.takeWhile_append_dropWhile]; exact hc :
        c ∈ List.takeWhile Char.isWhitespace l ++ List.dropWhile Char.isWhitespace l)
    with h1 | h2
  · exact List.mem_takeWhile_imp h1
  · exact h c (List.mem_reverse.mpr h2)

theorem stripL_eq_nil_of_all {l : List Char} (h : ∀ c ∈ l, c.isWhitespace = true) :
    stripL l = [] := by
  unfold stripL
  rw [List.dropWhile_eq_nil_iff.mpr h]
  rfl

theorem splitLines_eq_nil {text : List Char} (h : stripL text = []) :
    splitLines text = [] := by
  have hall := all_whitespace_of_stripL_eq_nil h
  unfold splitLines
  rw [List.filter_eq_nil_iff]
  intro x hx
  obtain ⟨seg, hseg, rfl⟩ := List.mem_map.mp hx
  simp only [ne_eq, decide_not, Bool.not_eq_true', decide_eq_false_iff_not, not_not]
  refine stripL_eq_nil_of_all fun c hc => hall c ?_
  exact mem_of_mem_splitOnP (by simpa [List.splitOn] using hseg) hc

theorem lookupA_applyDescription_ne (lines : List (List Char)) (r : Record)
    {k : String} (h : k ≠ "Description") :
    lookupA (applyDescription lines r) k = lookupA r k := by
  unfold applyDescription
  cases descrLine lines with
  | none => rfl
  | some l => exact lookupA_setA_ne _ _ h

theorem lookupA_resolveName_ne {item_data : List (List Char × List Char)}
    {r r2 : Record} {cand : List Char} (h : resolveName item_data r cand = some r2)
    {k : String} (h1 : k ≠ "Name") (h2 : k ≠ "Item Type") :
    lookupA r2 k = lookupA r k := by
  unfold resolveName at h
  split at h
  · split at h
    · cases h
    · split at h
      · cases h
        rw [lookupA_setA_ne _ _ h2, lookupA_setA_ne _ _ h1]
      · cases h
        rfl
  · cases h
    rfl

theorem lookupA_nameExtracted_isRadiant (lines : List (List Char)) :
    lookupA (nameExtracted lines) "Is Radiant" = some (.boolean false) := by
  unfold nameExtracted
  cases firstNonMarker lines with
  | none => rfl
  | some l =>
    rw [lookupA_setA_ne _ _ (by decide)]
    rfl

/-- With an empty catalog, name resolution of a non-empty candidate is
Python's `min` over an empty sequence: a raised `ValueError`. -/
theorem resolveName_nil_catalog {r : Record} {cand : List Char} (h : cand ≠ []) :
    resolveName [] r cand = none := by
  simp [resolveName, h, argminBy]

/-- With an empty catalog, `parse_attributes` raises whenever a name
candidate is extracted from the text. -/
theorem parse_attributes_none_of (text : List Char) (column_names : List (List Char))
    (hstrip : stripL text ≠ []) {l : List Char}
    (hl : firstNonMarker (splitLines text) = some l) :
    parse_attributes text [] column_names = none := by
  obtain ⟨pre, rest, hsp, -, -⟩ := firstNonMarker_some hl
  have hlne : l ≠ [] := splitLines_mem_ne_nil
    (by rw [hsp]; exact List.mem_append_right _ (List.mem_cons_self _ _))
  have hcand : nameCandidate (splitLines text) = l := by
    unfold nameCandidate
    rw [hl]
    rfl
  unfold parse_attributes
  rw [if_neg hstrip, hcand, resolveName_nil_catalog hlne]

/-! ### Claim C1 (amended theorem) -/

/-- C1 (amended): `parse_attributes` never raises — and then returns a
record containing every schema field — exactly when the catalog is
non-empty, the text strips to whitespace, or no name candidate is
extracted (every line equal to the marker phrase); with an empty catalog
it raises `ValueError` (the `min` over the empty dict's keys at
`src/main.py` line 212) precisely when a name candidate exists. -/
theorem parse_attributes_total (text : List Char)
    (item_data : List (List Char × List Char)) (column_names : List (List Char)) :
    ((parse_attributes text item_data column_names).isSome = true ↔
      (item_data ≠ [] ∨ stripL text = [] ∨ firstNonMarker (splitLines text) = none)) ∧
    ∀ r, parse_attributes text item_data column_names = some r →
      r.map Prod.fst = attrKeys := by
  refine ⟨⟨?_, parse_attributes_isSome_of text item_data column_names⟩,
    fun _ hr => parse_attributes_keys hr⟩
  intro hsome
  by_contra hneg
  push_neg at hneg
  obtain ⟨hcat, hstrip, hfnm⟩ := hneg
  rcases hl : firstNonMarker (splitLines text) with _ | l
  · exact hfnm hl
  · subst hcat
    rw [parse_attributes_none_of text column_names hstrip hl] at hsome
    simp at hsome

/-- Witness for C1's amended theorem at a concrete input. -/
theorem parse_attributes_total_witness :
    (parse_attributes "x".toList [("a".toList, "b".toList)] []).isSome = true :=
  (parse_attributes_total "x".toList [("a".toList, "b".toList)] []).1.mpr
    (Or.inl (by decide))

/-! ### Tracking the radiant flag through the scan -/

theorem scanLine_isRadiant_clean (r : Record) (line : List Char)
    (hkeys : r.map Prod.fst = attrKeys)
    (hno : ¬ (containsSub (toLowerL line) ("is radiant".toList) = true ∧
      (firstDigits line).isSome = true)) :
    lookupA (scanLine r line) "Is Radiant" =
      if containsSub line markerStr = true then some (.boolean true)
      else lookupA r "Is Radiant" := by
  unfold scanLine
  rw [lookupA_applySpecial_ne _ _ (by decide) (by decide)]
  have hgen : lookupA (scanGeneric line (applyMarker line r)) "Is Radiant" =
      lookupA (applyMarker line r) "Is Radiant" := by
    by_cases htrig : containsSub (toLowerL line) (toLowerL "Is Radiant".toList) = true
    · rcases hfd : firstDigits line with _ | ds
      · rw [scanGeneric_nodigits _ _ hfd]
      · exact absurd ⟨by rw [show ("is radiant".toList : List Char) =
            toLowerL "Is Radiant".toList from by decide]; exact htrig,
            by rw [hfd]; rfl⟩ hno
    · exact scanGeneric_lookup_noTrig _ _ (by simpa using htrig)
  rw [hgen]
  by_cases hm : containsSub line markerStr = true
  · rw [if_pos hm]
    unfold applyMarker
    rw [if_pos hm]
    exact lookupA_setA_self _ (by rw [hkeys]; decide)
  · rw [if_neg hm]
    unfold applyMarker
    rw [if_neg hm]

theorem scanAll_isRadiant (lines : List (List Char)) (r : Record)
    (hkeys : r.map Prod.fst = attrKeys)
    (hno : ∀ l ∈ lines, ¬ (containsSub (toLowerL l) ("is radiant".toList) = true ∧
      (firstDigits l).isSome = true)) :
    lookupA (scanAll lines r) "Is Radiant" =
      if lines.any (fun l => containsSub l markerStr) = true then some (.boolean true)
      else lookupA r "Is Radiant" := by
  induction lines generalizing r with
  | nil => simp [scanAll]
  | cons l ls ih =>
    have hstep := scanLine_isRadiant_clean r l hkeys (hno l (List.mem_cons_self _ _))
    show lookupA (scanAll ls (scanLine r l)) "Is Radiant" = _
    rw [ih (scanLine r l) (by rw [scanLine_keys, hkeys])
      (fun l2 h2 => hno l2 (List.mem_cons_of_mem _ h2)), hstep]
    by_cases hl : containsSub l markerStr = true <;>
      by_cases hany : ls.any (fun x => containsSub x markerStr) = true <;>
        simp [List.any_cons, hl, hany]

/-! ### Claim C5 (amended theorem) -/

/-- C5 (amended): with a non-empty catalog, the raw name candidate is the
first line different from the marker phrase (`Name` keeps its default when
no such line exists); the fuzzy match compares the LOWERCASED candidate
with the LOWERCASED catalog keys; when the minimum such distance is at
most 5 the name-resolution step sets `Name` to the closest key and
`Item Type` to its catalog type, and otherwise leaves the raw candidate
and the empty type (the later attribute scan may still overwrite both). -/
theorem name_resolution_threshold5 (text : List Char)
    (item_data : List (List Char × List Char)) (hcat : item_data ≠ []) :
    (firstNonMarker (splitLines text) = none →
      (∀ l ∈ splitLines text, l = markerStr) ∧
      resolveName item_data (nameExtracted (splitLines text))
        (nameCandidate (splitLines text)) = some (nameExtracted (splitLines text)) ∧
      lookupA (nameExtracted (splitLines text)) "Name" = some (.str [])) ∧
    (∀ l, firstNonMarker (splitLines text) = some l →
      (∃ pre rest, splitLines text = pre ++ l :: rest ∧
        (∀ p ∈ pre, p = markerStr) ∧ l ≠ markerStr) ∧
      ∃ r2 closest,
        resolveName item_data (nameExtracted (splitLines text))
          (nameCandidate (splitLines text)) = some r2 ∧
        closest ∈ item_data.map Prod.fst ∧
        (∀ key ∈ item_data.map Prod.fst,
          levenshtein_distance (toLowerL l) (toLowerL closest) ≤
            levenshtein_distance (toLowerL l) (toLowerL key)) ∧
        (levenshtein_distance (toLowerL l) (toLowerL closest) ≤ 5 →
          lookupA r2 "Name" = some (.str closest) ∧
          lookupA r2 "Item Type" =
            some (.str ((lookupA item_data closest).getD []))) ∧
        (¬ levenshtein_distance (toLowerL l) (toLowerL closest) ≤ 5 →
          lookupA r2 "Name" = some (.str l) ∧
          lookupA r2 "Item Type" = some (.str []))) := by
  constructor
  · intro h0
    refine ⟨firstNonMarker_none h0, ?_, ?_⟩
    · have hcand : nameCandidate (splitLines text) = [] := by
        unfold nameCandidate
        rw [h0]
        rfl
      rw [hcand]
      exact resolveName_nil_cand _ _
    · unfold nameExtracted
      rw [h0]
      rfl
  · intro l hl
    obtain ⟨pre, rest, hsp, hpre, hlm⟩ := firstNonMarker_some hl
    refine ⟨⟨pre, rest, hsp, hpre, hlm⟩, ?_⟩
    have hlmem : l ∈ splitLines text := by
      rw [hsp]
      exact List.mem_append_right _ (List.mem_cons_self _ _)
    have hlne : l ≠ [] := splitLines_mem_ne_nil hlmem
    have hcand : nameCandidate (splitLines text) = l := by
      unfold nameCandidate
      rw [hl]
      rfl
    have hkne : item_data.map Prod.fst ≠ [] := by
      cases item_data with
      | nil => exact absurd rfl hcat
      | cons a t => simp
    obtain ⟨closest, hcl⟩ := Option.isSome_iff_exists.mp
      (argminBy_isSome (fun x => levenshtein_distance (toLowerL l) (toLowerL x))
        _ hkne)
    have hkeysNE : (nameExtracted (splitLines text)).map Prod.fst = attrKeys :=
      nameExtracted_keys _
    have hname : lookupA (nameExtracted (splitLines text)) "Name" =
        some (.str l) := by
      unfold nameExtracted
      rw [hl]
      exact lookupA_setA_self _ (by decide)
    by_cases hle : levenshtein_distance (toLowerL l) (toLowerL closest) ≤ 5
    · have hres : resolveName item_data (nameExtracted (splitLines text))
          (nameCandidate (splitLines text)) =
          some (setA (setA (nameExtracted (splitLines text)) "Name" (.str closest))
            "Item Type" (.str ((lookupA item_data closest).getD []))) := by
        simp [resolveName, hcand, hlne, hcl, hle]
      refine ⟨_, closest, hres, argminBy_mem _ _ _ hcl, argminBy_le _ _ _ hcl,
        fun _ => ⟨?_, ?_⟩, fun hc => absurd hle hc⟩
      · rw [lookupA_setA_ne _ _ (by decide)]
        exact lookupA_setA_self _ (by rw [hkeysNE]; decide)
      · exact lookupA_setA_self _ (by rw [setA_keys, hkeysNE]; decide)
    · have hres : resolveName item_data (nameExtracted (splitLines text))
          (nameCandidate (splitLines text)) =
          some (nameExtracted (splitLines text)) := by
        simp [resolveName, hcand, hlne, hcl, hle]
      refine ⟨_, closest, hres, argminBy_mem _ _ _ hcl, argminBy_le _ _ _ hcl,
        fun hc => absurd hc hle, fun _ => ⟨hname, ?_⟩⟩
      unfold nameExtracted
      rw [hl, lookupA_setA_ne _ _ (by decide)]
      rfl

/-- Witness for C5's amended theorem at the spec's example. -/
theorem name_resolution_threshold5_witness :
    (resolveName [("Iron Sword".toList, "Weapon".toList)]
        (nameExtracted (splitLines "Iron Swrd".toList))
        (nameCandidate (splitLines "Iron Swrd".toList))).bind
      (fun r => lookupA r "Name") = some (FVal.str "Iron Sword".toList) := by
  obtain ⟨-, r2, closest, hres, hmem, -, hle5, -⟩ :=
    (name_resolution_threshold5 "Iron Swrd".toList
      [("Iron Sword".toList, "Weapon".toList)] (by decide)).2
      "Iron Swrd".toList (by decide)
  have hclosest : closest = "Iron Sword".toList := by simpa using hmem
  subst hclosest
  rw [hres]
  simp only [Option.some_bind]
  exact (hle5 (by decide)).1

/-! ### Claim C8 (amended theorem) -/

/-- C8 (amended): a line CONTAINING the marker phrase as a substring sets
`Is Radiant` to `True`; when no line contains the marker as a substring
(and no line contains the label `"is radiant"` together with a digit,
which would overwrite the flag with an integer), `Is Radiant` stays
`False`; and the exact marker line is never chosen as `Name` nor as
`Description`. -/
theorem radiant_marker (text : List Char)
    (item_data : List (List Char × List Char)) (column_names : List (List Char))
    (r : Record) (hr : parse_attributes text item_data column_names = some r)
    (hno : ∀ l ∈ splitLines text,
      ¬ (containsSub (toLowerL l) ("is radiant".toList) = true ∧
        (firstDigits l).isSome = true)) :
    (lookupA r "Is Radiant" = some (.boolean true) ↔
      ∃ l ∈ splitLines text, containsSub l markerStr = true) ∧
    (∀ l, firstNonMarker (splitLines text) = some l → l ≠ markerStr) ∧
    (∀ l, descrLine (splitLines text) = some l → l ≠ markerStr) := by
  refine ⟨?_, ?_, ?_⟩
  · have hval : lookupA r "Is Radiant" =
        if (splitLines text).any (fun l => containsSub l markerStr) = true
        then some (.boolean true) else some (.boolean false) := by
      unfold parse_attributes at hr
      split at hr
      · cases hr
        rw [splitLines_eq_nil (by assumption)]
        rfl
      · rcases hres : resolveName item_data (nameExtracted (splitLines text))
            (nameCandidate (splitLines text)) with _ | r2
        · rw [hres] at hr
          cases hr
        · rw [hres] at hr
          cases hr
          rw [lookupA_applyDescription_ne _ _ (by decide),
            scanAll_isRadiant _ _ (by rw [resolveName_keys hres, nameExtracted_keys]) hno,
            lookupA_resolveName_ne hres (by decide) (by decide),
            lookupA_nameExtracted_isRadiant]
    rw [hval]
    by_cases hany : (splitLines text).any (fun l => containsSub l markerStr) = true
    · rw [if_pos hany]
      exact iff_of_true rfl (by simpa [List.any_eq_true] using hany)
    · rw [if_neg hany]
      refine iff_of_false (fun hcontra => ?_) (fun hcontra => ?_)
      · injection hcontra with hv
        cases hv
      · exact hany (List.any_eq_true.mpr (by simpa [List.any_eq_true] using hcontra))
  · intro l hl
    exact (firstNonMarker_some hl).choose_spec.choose_spec.2.2
  · intro l hl
    have hp := List.find?_some hl
    simp only [Bool.and_eq_true, bne_iff_ne, decide_eq_true_eq] at hp
    exact hp.2

/-- Witness for C8's amended theorem at a concrete input. -/
theorem radiant_marker_witness :
    getField (parse_attributes "Foo\nxRunes can't be added to this itemxy".toList
      catZ []) "Is Radiant" = some (FVal.boolean true) := by
  unfold getField
  rcases hp : parse_attributes "Foo\nxRunes can't be added to this itemxy".toList
      catZ [] with _ | r
  · exact absurd hp (by decide)
  · have h := (radiant_marker _ catZ [] r hp (by decide)).1.mpr
      ⟨"xRunes can't be added to this itemxy".toList, by decide, by decide⟩
    rw [Option.some_bind]
    exact h

/-! ### The Levenshtein recurrence: basic identities -/

theorem levSpec_nil_left (ys : List Char) : levSpec [] ys = ys.length := by
  cases ys <;> simp [levSpec]

theorem levSpec_nil_right (xs : List Char) : levSpec xs [] = xs.length := by
  cases xs <;> simp [levSpec]

theorem levSpec_cons_cons (x y : Char) (xs ys : List Char) :
    levSpec (x :: xs) (y :: ys) =
      min (levSpec xs (y :: ys) + 1)
        (min (levSpec (x :: xs) ys + 1)
          (levSpec xs ys + (if x = y then 0 else 1))) := by
  simp [levSpec]

theorem levSpec_self (xs : List Char) : levSpec xs xs = 0 := by
  induction xs with
  | nil => simp [levSpec]
  | cons x xs ih => simp [levSpec_cons_cons, ih]

theorem levSpec_comm (xs : List Char) : ∀ ys, levSpec xs ys = levSpec ys xs := by
  induction xs with
  | nil => intro ys; rw [levSpec_nil_left, levSpec_nil_right]
  | cons x xs ihx =>
    intro ys
    induction ys with
    | nil => rw [levSpec_nil_left, levSpec_nil_right]
    | cons y ys ihy =>
      rw [levSpec_cons_cons, levSpec_cons_cons, ihx (y :: ys), ihy, ihx ys]
      have hc : (if x = y then 0 else 1) = (if y = x then 0 else 1) := by
        by_cases h : x = y
        · rw [if_pos h, if_pos h.symm]
        · rw [if_neg h, if_neg (Ne.symm h)]
      rw [hc, min_left_comm]

set_option maxHeartbeats 1000000 in
/-- The `snoc` form of the recurrence: exactly the cell equation of the
dynamic programme, extending both strings at the back. -/
theorem levSpec_snoc (a b : Char) :
    ∀ p q : List Char,
      levSpec (p ++ [a]) (q ++ [b]) =
        min (levSpec p (q ++ [b]) + 1)
          (min (levSpec (p ++ [a]) q + 1)
            (levSpec p q + (if a = b then 0 else 1))) := by
  intro p
  induction p with
  | nil =>
    intro q
    induction q with
    | nil =>
      simp only [List.nil_append]
      rw [levSpec_cons_cons]
    | cons y q' ihq =>
      simp only [List.nil_append, List.cons_append] at *
      rw [levSpec_cons_cons, ihq, levSpec_cons_cons]
      simp only [levSpec_nil_left, List.length_append, List.length_cons,
        List.length_nil]
      simp only [← min_add_add_right, min_assoc]
      ring_nf
      simp only [min_comm, min_left_comm, min_assoc]
  | cons x p' ihp =>
    intro q
    induction q with
    | nil =>
      simp only [List.cons_append, List.nil_append] at *
      have h1 := ihp []
      simp only [List.nil_append] at h1
      rw [levSpec_cons_cons, h1, levSpec_cons_cons]
      simp only [levSpec_nil_right, levSpec_nil_left, List.length_append,
        List.length_cons, List.length_nil, List.nil_append]
      simp only [← min_add_add_right, min_assoc]
      ring_nf
      simp only [min_comm, min_left_comm, min_assoc]
    | cons y q' ihq =>
      simp only [List.cons_append] at *
      have h1 := ihp (y :: q')
      simp only [List.cons_append] at h1
      rw [levSpec_cons_cons x y (p' ++ [a]) (q' ++ [b]), h1, ihq,
        ihp q', levSpec_cons_cons x y p' (q' ++ [b]),
        levSpec_cons_cons x y (p' ++ [a]) q', levSpec_cons_cons x y p' q']
      simp only [← min_add_add_right, min_assoc]
      ring_nf
      simp only [min_comm, min_left_comm, min_assoc]

/-! ### The dynamic programme computes the recurrence -/

theorem rowFrom_head (p q s : List Char) :
    rowFrom p q s = levSpec p q :: (rowFrom p q s).tail := by
  cases s <;> rfl

theorem rowFrom_headD (p q s : List Char) :
    (rowFrom p q s).headD 0 = levSpec p q := by
  cases s <;> rfl

theorem currentRowRest_spec (c1 : Char) (p : List Char) :
    ∀ s2r q : List Char,
      currentRowRest c1 s2r (rowFrom p q s2r) (levSpec (p ++ [c1]) q) =
        (rowFrom (p ++ [c1]) q s2r).tail := by
  intro s2r
  induction s2r with
  | nil => intro q; rfl
  | cons c2 rest ih =>
    intro q
    show currentRowRest c1 (c2 :: rest) (levSpec p q :: rowFrom p (q ++ [c2]) rest)
      (levSpec (p ++ [c1]) q) = _
    simp only [currentRowRest]
    rw [rowFrom_headD, ← levSpec_snoc, ih (q ++ [c2]), ← rowFrom_head]
    rfl

theorem levLoop_spec (s2 : List Char) :
    ∀ s1rem p : List Char,
      levLoop s2 s1rem p.length (rowFrom p [] s2) = rowFrom (p ++ s1rem) [] s2 := by
  intro s1rem
  induction s1rem with
  | nil => intro p; simp [levLoop]
  | cons c1 rest ih =>
    intro p
    show levLoop s2 rest (p.length + 1)
      ((p.length + 1) :: currentRowRest c1 s2 (rowFrom p [] s2) (p.length + 1)) = _
    have hlen : p.length + 1 = (p ++ [c1]).length := by simp
    have hpay : ((p ++ [c1]).length : Nat) ::
        currentRowRest c1 s2 (rowFrom p [] s2) ((p ++ [c1]).length) =
        rowFrom (p ++ [c1]) [] s2 := by
      rw [show ((p ++ [c1]).length : Nat) = levSpec (p ++ [c1]) [] from
        (levSpec_nil_right _).symm]
      rw [currentRowRest_spec c1 p s2 [], ← rowFrom_head]
    rw [hlen, hpay, ih (p ++ [c1])]
    simp

theorem rowFrom_nil_left : ∀ s q : List Char,
    rowFrom [] q s = List.range' q.length (s.length + 1) := by
  intro s
  induction s with
  | nil => intro q; simp [rowFrom, levSpec_nil_left, List.range']
  | cons c rest ih =>
    intro q
    simp [rowFrom, levSpec_nil_left, ih, List.range']

theorem rowFrom_getLastD (p : List Char) : ∀ s q : List Char, ∀ d : Nat,
    (rowFrom p q s).getLastD d = levSpec p (q ++ s) := by
  intro s
  induction s with
  | nil => intro q d; simp [rowFrom]
  | cons c rest ih =>
    intro q d
    simp only [rowFrom, List.getLastD_cons]
    rw [ih (q ++ [c]) (levSpec p q)]
    simp

theorem levCore_eq (s1 s2 : List Char) : levCore s1 s2 = levSpec s1 s2 := by
  unfold levCore
  split
  · have h2 : s2 = [] := List.length_eq_zero.mp (by assumption)
    subst h2
    rw [levSpec_nil_right]
  · have hinit : List.range (s2.length + 1) = rowFrom [] [] s2 := by
      rw [rowFrom_nil_left, List.range_eq_range']
      rfl
    rw [hinit]
    have hloop := levLoop_spec s2 s1 []
    simp only [List.length_nil, List.nil_append] at hloop
    rw [hloop, rowFrom_getLastD]
    simp

theorem levenshtein_distance_eq (s1 s2 : List Char) :
    levenshtein_distance s1 s2 = levSpec s1 s2 := by
  unfold levenshtein_distance
  split
  · rw [levCore_eq, levSpec_comm]
  · rw [levCore_eq]

/-! ### Edit chains: the recurrence is the least chain length -/

theorem editStep_cons {xs ys : List Char} (c : Char) (h : EditStep xs ys) :
    EditStep (c :: xs) (c :: ys) := by
  cases h with
  | ins l r a => exact EditStep.ins (c :: l) r a
  | del l r a => exact EditStep.del (c :: l) r a
  | subst l r a b => exact EditStep.subst (c :: l) r a b

theorem editChain_cons {n : Nat} {xs ys : List Char} (c : Char)
    (h : EditChain n xs ys) : EditChain n (c :: xs) (c :: ys) := by
  induction h with
  | refl xs => exact .refl _
  | step hs _ ih => exact .step (editStep_cons c hs) ih

theorem editChain_nil_to (ys : List Char) : EditChain ys.length [] ys := by
  induction ys with
  | nil => exact .refl _
  | cons y ys ih => exact .step (EditStep.ins [] [] y) (editChain_cons y ih)

theorem editChain_to_nil (xs : List Char) : EditChain xs.length xs [] := by
  induction xs with
  | nil => exact .refl _
  | cons x xs ih => exact .step (EditStep.del [] xs x) ih

/-- Upper bound: a chain of exactly `levSpec xs ys` edits exists. -/
theorem editChain_levSpec (xs : List Char) : ∀ ys, EditChain (levSpec xs ys) xs ys := by
  induction xs with
  | nil =>
    intro ys
    rw [levSpec_nil_left]
    exact editChain_nil_to ys
  | cons x xs ihx =>
    intro ys
    induction ys with
    | nil =>
      rw [levSpec_nil_right]
      exact editChain_to_nil _
    | cons y ys ihy =>
      rw [levSpec_cons_cons]
      rcases min_cases (levSpec xs (y :: ys) + 1)
          (min (levSpec (x :: xs) ys + 1)
            (levSpec xs ys + (if x = y then 0 else 1))) with ⟨h1, -⟩ | ⟨h1, -⟩
      · rw [h1]
        exact .step (EditStep.del [] xs x) (ihx (y :: ys))
      · rw [h1]
        rcases min_cases (levSpec (x :: xs) ys + 1)
            (levSpec xs ys + (if x = y then 0 else 1)) with ⟨h2, -⟩ | ⟨h2, -⟩
        · rw [h2]
          exact .step (EditStep.ins [] (x :: xs) y) (editChain_cons y ihy)
        · rw [h2]
          by_cases hxy : x = y
          · subst hxy
            rw [if_pos rfl, Nat.add_zero]
            exact editChain_cons x (ihx ys)
          · rw [if_neg hxy]
            exact .step (EditStep.subst [] xs x y) (editChain_cons y (ihx ys))

theorem levSpec_le_cons_left (a : Char) (xs ys : List Char) :
    levSpec (a :: xs) ys ≤ levSpec xs ys + 1 := by
  cases ys with
  | nil =>
    rw [levSpec_nil_right, levSpec_nil_right]
    simp
  | cons y ys =>
    rw [levSpec_cons_cons]
    exact min_le_left _ _

theorem levSpec_le_cons_right (b : Char) (xs ys : List Char) :
    levSpec xs (b :: ys) ≤ levSpec xs ys + 1 := by
  cases xs with
  | nil =>
    rw [levSpec_nil_left, levSpec_nil_left]
    simp
  | cons x xs =>
    rw [levSpec_cons_cons]
    exact le_trans (min_le_right _ _) (min_le_left _ _)

theorem levSpec_cons_left_le (a : Char) : ∀ ys xs : List Char,
    levSpec xs ys ≤ levSpec (a :: xs) ys + 1 := by
  intro ys
  induction ys with
  | nil =>
    intro xs
    rw [levSpec_nil_right, levSpec_nil_right]
    simp only [List.length_cons]
    omega
  | cons y ys ih =>
    intro xs
    rw [levSpec_cons_cons]
    have h1 := levSpec_le_cons_right y xs ys
    have h2 := ih xs
    have h3 : (0 : Nat) ≤ if a = y then 0 else 1 := Nat.zero_le _
    simp only [← min_add_add_right]
    refine le_min ?_ (le_min ?_ ?_)
    · omega
    · omega
    · omega

theorem levSpec_del_le (a : Char) : ∀ l r ys : List Char,
    levSpec (l ++ a :: r) ys ≤ levSpec (l ++ r) ys + 1 := by
  intro l
  induction l with
  | nil =>
    intro r ys
    simpa using levSpec_le_cons_left a r ys
  | cons x l' ihl =>
    intro r ys
    induction ys with
    | nil =>
      simp only [List.cons_append, levSpec_nil_right, List.length_cons,
        List.length_append]
      omega
    | cons y ys' ihy =>
      simp only [List.cons_append] at *
      rw [levSpec_cons_cons, levSpec_cons_cons]
      have h1 := ihl r (y :: ys')
      have h2 := ihy
      have h3 := ihl r ys'
      simp only [← min_add_add_right]
      refine le_min (le_trans (min_le_left _ _) ?_)
        (le_min (le_trans (min_le_right _ _) (le_trans (min_le_left _ _) ?_))
          (le_trans (min_le_right _ _) (le_trans (min_le_right _ _) ?_)))
      · omega
      · omega
      · omega

theorem levSpec_ins_le (a : Char) : ∀ l r ys : List Char,
    levSpec (l ++ r) ys ≤ levSpec (l ++ a :: r) ys + 1 := by
  intro l
  induction l with
  | nil =>
    intro r ys
    simpa using levSpec_cons_left_le a ys r
  | cons x l' ihl =>
    intro r ys
    induction ys with
    | nil =>
      simp only [List.cons_append, levSpec_nil_right, List.length_cons,
        List.length_append]
      omega
    | cons y ys' ihy =>
      simp only [List.cons_append] at *
      rw [levSpec_cons_cons, levSpec_cons_cons]
      have h1 := ihl r (y :: ys')
      have h2 := ihy
      have h3 := ihl r ys'
      simp only [← min_add_add_right]
      refine le_min (le_trans (min_le_left _ _) ?_)
        (le_min (le_trans (min_le_right _ _) (le_trans (min_le_left _ _) ?_))
          (le_trans (min_le_right _ _) (le_trans (min_le_right _ _) ?_)))
      · omega
      · omega
      · omega

theorem levSpec_subst_le (a b : Char) : ∀ l r ys : List Char,
    levSpec (l ++ a :: r) ys ≤ levSpec (l ++ b :: r) ys + 1 := by
  intro l
  induction l with
  | nil =>
    intro r ys
    induction ys with
    | nil =>
      simp only [List.nil_append, levSpec_nil_right, List.length_cons]
      omega
    | cons y ys' ihy =>
      simp only [List.nil_append] at *
      rw [levSpec_cons_cons, levSpec_cons_cons]
      have h2 := ihy
      have hca : (if a = y then (0 : Nat) else 1) ≤ 1 := by
        split
        · exact Nat.zero_le 1
        · exact Nat.le_refl 1
      have hcb : (0 : Nat) ≤ if b = y then 0 else 1 := Nat.zero_le _
      simp only [← min_add_add_right]
      refine le_min (le_trans (min_le_left _ _) ?_)
        (le_min (le_trans (min_le_right _ _) (le_trans (min_le_left _ _) ?_))
          (le_trans (min_le_right _ _) (le_trans (min_le_right _ _) ?_)))
      · omega
      · omega
      · omega
  | cons x l' ihl =>
    intro r ys
    induction ys with
    | nil =>
      simp only [List.cons_append, levSpec_nil_right, List.length_cons,
        List.length_append]
      omega
    | cons y ys' ihy =>
      simp only [List.cons_append] at *
      rw [levSpec_cons_cons, levSpec_cons_cons]
      have h1 := ihl r (y :: ys')
      have h2 := ihy
      have h3 := ihl r ys'
      simp only [← min_add_add_right]
      refine le_min (le_trans (min_le_left _ _) ?_)
        (le_min (le_trans (min_le_right _ _) (le_trans (min_le_left _ _) ?_))
          (le_trans (min_le_right _ _) (le_trans (min_le_right _ _) ?_)))
      · omega
      · omega
      · omega

/-- One edit changes the distance to any third string by at most one. -/
theorem levSpec_le_of_editStep {xs ys : List Char} (h : EditStep xs ys)
    (zs : List Char) : levSpec xs zs ≤ levSpec ys zs + 1 := by
  cases h with
  | ins l r a => exact levSpec_ins_le a l r zs
  | del l r a => exact levSpec_del_le a l r zs
  | subst l r a b => exact levSpec_subst_le a b l r zs

/-- Lower bound: no chain is shorter than `levSpec`. -/
theorem levSpec_le_editChain : ∀ {n : Nat} {xs ys : List Char},
    EditChain n xs ys → levSpec xs ys ≤ n := by
  intro n xs ys h
  induction h with
  | refl xs =>
    rw [levSpec_self]
  | step hs _ ih =>
    exact le_trans (levSpec_le_of_editStep hs _) (Nat.add_le_add_right ih 1)

/-! ### Claim C6 -/

/-- C6: `levenshtein_distance` computes the classic Levenshtein edit
distance: there is a chain of exactly `levenshtein_distance a b`
single-character insertions, deletions and substitutions transforming `a`
into `b`, and no shorter chain exists; consequently the distance is 0 on
equal strings, the length of the second string when the first is empty,
symmetric, and 3 on `"kitten"` / `"sitting"`. -/
theorem levenshtein_distance_correct :
    (∀ a b : List Char,
      EditChain (levenshtein_distance a b) a b ∧
      (∀ n, EditChain n a b → levenshtein_distance a b ≤ n) ∧
      levenshtein_distance a a = 0 ∧
      levenshtein_distance [] b = b.length ∧
      levenshtein_distance a b = levenshtein_distance b a) ∧
    levenshtein_distance "kitten".toList "sitting".toList = 3 := by
  refine ⟨fun a b => ⟨?_, ?_, ?_, ?_, ?_⟩, by decide⟩
  · rw [levenshtein_distance_eq]
    exact editChain_levSpec a b
  · intro n hn
    rw [levenshtein_distance_eq]
    exact levSpec_le_editChain hn
  · rw [levenshtein_distance_eq]
    exact levSpec_self a
  · rw [levenshtein_distance_eq, levSpec_nil_left]
  · rw [levenshtein_distance_eq, levenshtein_distance_eq]
    exact levSpec_comm a b

/-- Witness for C6's minimality conjunct at a concrete one-step chain. -/
theorem levenshtein_distance_correct_witness :
    levenshtein_distance ['a'] [] ≤ 1 :=
  (levenshtein_distance_correct.1 ['a'] []).2.1 1
    (EditChain.step (EditStep.del [] [] 'a') (EditChain.refl []))

end RiseItemizer
